import Mathlib

/-!
Verification of the license-amalgamation core of the sliderule crate.

The development shallowly embeds the functions of `src/lib.rs` that the
spec's core covers: the key-scoped text read/update primitives
(`get_yaml_value`, `get_json_value`, `update_json_value`,
`update_yaml_value`), the component-hierarchy walker (`get_sr_paths`,
`path_cmp`), the license amalgamator (`amalgamate_licenses`), and the
helpers `get_level` and `combine_sroutputs`.

File contents are modelled as `String` (lists of characters); the
filesystem is modelled as a finite association list from paths (lists of
components) to file contents.  The Rust string operations the source uses
(`str::lines`, `str::split`, `str::replace`, `str::contains`, `str::trim`)
are modelled character by character with their Rust semantics: `replace`
substitutes every non-overlapping occurrence, `split` keeps empty parts,
`lines` splits on a line feed and drops one carriage return that precedes
a line feed.  A `panic` of the Rust code (indexing `part[1]` of a line
without a colon, reading a missing file) is modelled by `Option.none`.

The directory walk of the source is performed by the `globwalk` /
`walkdir` crates with a per-directory comparator (`path_cmp`), links not
followed, maximum depth 100, and iteration errors discarded by
`filter_map(Result::ok)`.  Its observable result on a well-formed tree is
the list of files named `.sr` below the root, in depth-first order with
the entries of every directory visited in ascending order of their path
strings, which on paths-as-component-lists is exactly the lexicographic
order `pathLt` below; a root that does not exist yields no entries and no
error.
-/

set_option maxHeartbeats 1600000

namespace Sliderule

/-- Rust `pat.is_prefix_of s` on character lists. -/
def leadsWith : List Char → List Char → Bool
  | [], _ => true
  | _ :: _, [] => false
  | a :: as, b :: bs => a == b && leadsWith as bs

/-- Rust `s.split(sep)` for a one-character separator: every part is kept,
including empty ones. -/
def splitCh (sep : Char) : List Char → List (List Char)
  | [] => [[]]
  | c :: s =>
    if c = sep then [] :: splitCh sep s
    else
      match splitCh sep s with
      | [] => [[c]]
      | t :: ts => (c :: t) :: ts

/-- Drop one trailing carriage return, as Rust `lines()` does on a line
that was terminated by a line feed. -/
def dropSolCR (l : List Char) : List Char :=
  match l.getLast? with
  | some '\r' => l.dropLast
  | _ => l

/-- Rust `s.lines()`: split on `'\n'`, drop the empty fragment produced by a
trailing line feed, and strip one `'\r'` from every fragment that was
terminated by a line feed. -/
def rustLines (s : List Char) : List (List Char) :=
  let parts := splitCh '\n' s
  let body := parts.dropLast.map dropSolCR
  match parts.getLast? with
  | some [] => body
  | some l => body ++ [l]
  | none => body

/-- ASCII whitespace as used by the file formats at hand. -/
def isWs (c : Char) : Bool := c == ' ' || c == '\t' || c == '\n' || c == '\r'

/-- Rust `s.trim()`. -/
def rustTrim (s : List Char) : List Char :=
  ((s.dropWhile isWs).reverse.dropWhile isWs).reverse

/-- Rust `s.contains(pat)`: substring containment. -/
def containsSub (s pat : List Char) : Bool :=
  match s with
  | [] => pat.isEmpty
  | _ :: s' => leadsWith pat s || containsSub s' pat

/-- Fuelled worker for `repAll`; the fuel is an upper bound on the length of
the remaining text, so it never runs out on the initial call. -/
def repFuel (p : Char) (ps rep : List Char) : Nat → List Char → List Char
  | 0, s => s
  | _ + 1, [] => []
  | fuel + 1, c :: s =>
    if leadsWith (p :: ps) (c :: s) then rep ++ repFuel p ps rep fuel (s.drop ps.length)
    else c :: repFuel p ps rep fuel s

/-- Rust `s.replace(pat, rep)`: replaces every non-overlapping occurrence,
left to right; an empty pattern matches at every character boundary. -/
def repAll (s pat rep : List Char) : List Char :=
  match pat with
  | [] => rep ++ s.flatMap (fun c => c :: rep)
  | p :: ps => repFuel p ps rep s.length s

/-- Replacement of only the first occurrence (Rust `s.replacen(pat, rep, 1)`);
used to state what the spec's words would compute. -/
def repFirstAux (pat rep : List Char) : List Char → List Char
  | [] => []
  | c :: s =>
    if leadsWith pat (c :: s) then rep ++ (c :: s).drop pat.length
    else c :: repFirstAux pat rep s

/-- First-occurrence-only replacement on character lists. -/
def repFirst (s pat rep : List Char) : List Char :=
  match pat with
  | [] => rep ++ s
  | _ :: _ => repFirstAux pat rep s

/-- Rust `s.replace(pat, rep)` on `String`. -/
def sRepAll (s pat rep : String) : String := ⟨repAll s.data pat.data rep.data⟩

/-- First-occurrence-only replacement on `String`. -/
def sRepFirst (s pat rep : String) : String := ⟨repFirst s.data pat.data rep.data⟩

/-- Rust `s.contains(pat)` on `String`. -/
def sContains (s pat : String) : Bool := containsSub s.data pat.data

/-- Rust `s.trim()` on `String`. -/
def sTrim (s : String) : String := ⟨rustTrim s.data⟩

/-- Rust `s.lines()` on `String`. -/
def sLines (s : String) : List String := (rustLines s.data).map String.mk

/-- Rust `s.split(":")` on `String`. -/
def sSplitColon (s : String) : List String := (splitCh ':' s.data).map String.mk

/-- The value a line yields in `get_yaml_value` / `update_yaml_value`:
`part[1].replace(",", "").trim()` where `part = line.split(":")`.
`none` models the Rust index panic on a line without a colon. -/
def yamlExtract (line : String) : Option String :=
  match sSplitColon line with
  | _ :: p1 :: _ => some (sTrim (sRepAll p1 "," ""))
  | _ => none

/-- The value a line yields in `get_json_value` / `update_json_value`:
`part[1].replace("\"", "").replace(",", "").trim()`. -/
def jsonExtract (line : String) : Option String :=
  match sSplitColon line with
  | _ :: p1 :: _ => some (sTrim (sRepAll (sRepAll p1 "\"" "") "," ""))
  | _ => none

/-- The line loop shared by `get_yaml_value` and `get_json_value`: the value
starts out empty and every line containing `key` overwrites it, so the last
matching line wins. -/
def getValueAux (extract : String → Option String) (key : String)
    (lines : List String) : Option String :=
  lines.foldlM (fun v line => if sContains line key then extract line else some v) ""

/-- `get_yaml_value` on file contents (the file is assumed to exist; a missing
file makes the Rust function panic before this loop runs). -/
def get_yaml_value_c (contents key : String) : Option String :=
  getValueAux yamlExtract key (sLines contents)

/-- `get_json_value` on file contents. -/
def get_json_value_c (contents key : String) : Option String :=
  getValueAux jsonExtract key (sLines contents)

/-- One matching line's contribution in the update primitives:
`line.replace(old_value, value)`. -/
def updLine (extract : String → Option String) (value line : String) : Option String :=
  (extract line).map (fun old => sRepAll line old value)

/-- The line loop shared by `update_json_value` and `update_yaml_value`:
every line containing `key` recomputes `new_contents` from the *original*
contents as `contents.replace(line, line.replace(old_value, value))`; after
the loop the file is rewritten only if `new_contents` is non-empty. -/
def updValueAux (extract : String → Option String) (contents key value : String) :
    Option String := do
  let nc ← (sLines contents).foldlM (fun nc line =>
      if sContains line key then (updLine extract value line).map (fun nl => sRepAll contents line nl)
      else some nc) ""
  some (if nc = "" then contents else nc)

/-- `update_json_value` on file contents: the returned string is the contents
of the file after the call (unchanged when no line matched). -/
def update_json_value_c (contents key value : String) : Option String :=
  updValueAux jsonExtract contents key value

/-- `update_yaml_value` on file contents (its non-error path). -/
def update_yaml_value_c (contents key value : String) : Option String :=
  updValueAux yamlExtract contents key value

/-- One iteration of the `AND`-concatenation loops of `amalgamate_licenses`:
the counter is `i` resp. `j` of the source. -/
def andStep (p : String × Nat) (lic : String) : String × Nat :=
  ((if p.2 > 0 then p.1 ++ " AND " else p.1) ++ lic, p.2 + 1)

/-- The expression builder of `amalgamate_licenses`: parenthesis, the source
licenses joined by `" AND "`, one junction `" AND "` if both lists are
non-empty, the documentation licenses joined by `" AND "`, parenthesis. -/
def licenseExpr (source_licenses doc_licenses : List String) : String :=
  let p1 := source_licenses.foldl andStep ("(", 0)
  let s2 := if doc_licenses.length > 0 ∧ p1.2 > 0 then p1.1 ++ " AND " else p1.1
  let p2 := doc_licenses.foldl andStep (s2, 0)
  p2.1 ++ ")"

/-- The dedup step of `amalgamate_licenses`: push a value only if the list
does not already contain it. -/
def dedupAppend (acc : List String) (v : String) : List String :=
  if acc.contains v then acc else acc ++ [v]

/-- Folding `dedupAppend` over a whole sequence of extracted values. -/
def dedupTerms (l : List String) : List String := l.foldl dedupAppend []

/-- Keep the first occurrence of every value, in first-appearance order: the
reference description of order-preserving deduplication. -/
def firstSeen : List String → List String
  | [] => []
  | a :: l => a :: firstSeen (l.filter (fun b => b != a))
  termination_by l => l.length
  decreasing_by simp only [List.length_cons]; exact Nat.lt_succ_of_le (l.length_filter_le _)

/-- Join by `" AND "`, the way the claims word it. -/
def joinAnd : List String → String
  | [] => ""
  | t :: ts => t ++ joinTail ts
where
  /-- Tail of the join: one `" AND "` before every further term. -/
  joinTail : List String → String
    | [] => ""
    | t :: ts => " AND " ++ t ++ joinTail ts

/-- Everything after the first `':'` of the line (empty when there is no
colon); this is what the claims say the extraction takes. -/
def afterFirstColon (line : String) : String :=
  ⟨(line.data.dropWhile (fun c => !(c == ':'))).drop 1⟩

/-- The read rule in the words of the spec: take everything after the first
`':'`, trim, strip one trailing `','`, one leading and one trailing `'"'`,
trim again. -/
def specExtractValue (line : String) : String :=
  let s := sTrim (afterFirstColon line)
  let l := s.data
  let l := if l.getLast? == some ',' then l.dropLast else l
  let l := if l.getLast? == some '"' then l.dropLast else l
  let l := match l with
    | '"' :: t => t
    | _ => l
  sTrim ⟨l⟩

/-- The write rule in the words of the claim: for each line containing the
key, replace the *first* occurrence of the line's current value inside the
line, then replace the *first* occurrence of the original line inside the
(accumulated) file text. -/
def specUpdateValue (contents key value : String) : String :=
  (sLines contents).foldl (fun acc line =>
    if sContains line key then
      sRepFirst acc line (sRepFirst line (specExtractValue line) value)
    else acc) contents

/-- A filesystem snapshot: an association list from file paths (component
lists) to file contents.  Directories are implicit. -/
abbrev FS := List (List String × String)

/-- Reading a file: the content associated to the path, if present. -/
def lookupFS : FS → List String → Option String
  | [], _ => none
  | (q, c) :: fs, p => if q = p then some c else lookupFS fs p

/-- `fs::write`: replace the content stored at a path. -/
def fsWrite (fs : FS) (p : List String) (c : String) : FS :=
  fs.map (fun e => if e.1 = p then (p, c) else e)

/-- Proper-ancestor test on component paths. -/
def leadsWithL : List String → List String → Bool
  | [], _ => true
  | _ :: _, [] => false
  | a :: as, b :: bs => a == b && leadsWithL as bs

/-- Strict byte order on characters: Rust compares strings byte-wise and
UTF-8 preserves code-point order. -/
def charLtb (a b : Char) : Bool := decide (a.toNat < b.toNat)

/-- Rust `String` comparison `a < b`: lexicographic on code points. -/
def strLtb : List Char → List Char → Bool
  | [], [] => false
  | [], _ :: _ => true
  | _ :: _, [] => false
  | a :: s, b :: t => if charLtb a b then true else if charLtb b a then false else strLtb s t

/-- Rust string comparison on `String`. -/
def strLt (a b : String) : Bool := strLtb a.data b.data

/-- `path_cmp` of the source: compares two paths as strings and never
answers `Ordering.eq`. -/
def path_cmp (a b : String) : Ordering :=
  if strLt a b then Ordering.lt else Ordering.gt

/-- Lexicographic strict order on paths as component lists, components
compared as strings; this is the order in which the `walkdir` traversal
with per-directory `path_cmp` sorting emits the entries. -/
def pathLt : List String → List String → Bool
  | [], [] => false
  | [], _ :: _ => true
  | _ :: _, [] => false
  | a :: p, b :: q => if strLt a b then true else if strLt b a then false else pathLt p q

/-- The reflexive closure of `pathLt`, as the relation the walk's output is
sorted by. -/
def pathLe (p q : List String) : Prop := pathLt q p = false

instance : DecidableRel pathLe := fun p q => instDecidableEqBool (pathLt q p) false

/-- Whether `p` is a marker file the walk from `root` reports: a file named
`.sr` strictly below `root`, at most 100 levels deep. -/
def isMarkerUnder (root p : List String) : Bool :=
  leadsWithL root p && decide (root.length < p.length) &&
    decide (p.length ≤ root.length + 100) && (p.getLast? == some ".sr")

/-- `get_sr_paths`: the `.sr` files below the root in the deterministic
traversal order.  A missing or unreadable root contributes no entries (the
source filters iteration errors away) and raises no error. -/
def get_sr_paths (fs : FS) (root : List String) : List (List String) :=
  List.insertionSort pathLe ((fs.map Prod.fst).filter (isMarkerUnder root))

/-- `SROutput` of the source. -/
structure SROutput where
  status : Int
  wrapped_status : Int
  stdout : List String
  stderr : List String
deriving DecidableEq

/-- The all-zero `SROutput` that `amalgamate_licenses` builds and returns. -/
def SRzero : SROutput := ⟨0, 0, [], []⟩

/-- `combine_sroutputs` of the source. -/
def combine_sroutputs (dest src : SROutput) : SROutput :=
  let d1 : SROutput :=
    { dest with stdout := dest.stdout ++ src.stdout, stderr := dest.stderr ++ src.stderr }
  if d1.status = 0 ∧ src.status ≠ 0 then { d1 with status := src.status } else d1

/-- File-existence test. -/
def pathExists (fs : FS) (p : List String) : Bool := (fs.map Prod.fst).contains p

/-- `get_level` of the source: both the `current_file` and the `parent_file`
check inspect `target_dir.join(".sr")`. -/
def get_level (fs : FS) (target_dir : List String) : Nat :=
  let current_file := target_dir ++ [".sr"]
  let parent_file := target_dir ++ [".sr"]
  if !pathExists fs parent_file && !pathExists fs current_file then 0
  else if !pathExists fs parent_file && pathExists fs current_file then 1
  else 2

/-- The marker-reading loop of `amalgamate_licenses`: walk the marker paths
in order, read both license keys of each (panicking, `none`, if a marker
cannot be read), and deduplicate each category with `dedupAppend`. -/
def amalgSrcDoc (fs : FS) (markers : List (List String)) :
    Option (List String × List String) :=
  markers.foldlM (fun acc p => do
    let c ← lookupFS fs p
    let sv ← get_yaml_value_c c "source_license"
    let dv ← get_yaml_value_c c "documentation_license"
    some (dedupAppend acc.1 sv, dedupAppend acc.2 dv)) ([], [])

/-- `amalgamate_licenses`: walk, read, dedup, build the expression, and
rewrite the `license` line of `root/package.json` (silently skipped when that
file does not exist).  The returned `SROutput` is always the all-zero one. -/
def amalgamate_licenses (fs : FS) (root : List String) : Option (FS × SROutput) := do
  let sd ← amalgSrcDoc fs (get_sr_paths fs root)
  let expr := licenseExpr sd.1 sd.2
  match lookupFS fs (root ++ ["package.json"]) with
  | none => some (fs, SRzero)
  | some c => do
    let c1 ← update_json_value_c c "license" expr
    some (fsWrite fs (root ++ ["package.json"]) c1, SRzero)

/-- The manifest content after one amalgamation call. -/
def amalgManifest (fs : FS) (root : List String) : Option String :=
  (amalgamate_licenses fs root).bind (fun r => lookupFS r.1 (root ++ ["package.json"]))

/-- The manifest content after two consecutive amalgamation calls. -/
def amalgTwiceManifest (fs : FS) (root : List String) : Option String :=
  (amalgamate_licenses fs root).bind (fun r => amalgManifest r.1 root)

/-- The lines of `contents` containing `key`, in file order. -/
def matchingLines (contents key : String) : List String :=
  (sLines contents).filter (fun l => sContains l key)

/-- Every line of `contents` containing `key` survives `json` extraction
(no index panic). -/
def allExtractOk (contents key : String) : Bool :=
  (matchingLines contents key).all (fun l => (jsonExtract l).isSome)

/-- The last `key`-matching line of `contents` is left unchanged by replacing
its extracted value with `expr` again. -/
def lastLineNoop (contents key expr : String) : Bool :=
  (matchingLines contents key).getLast?.all (fun l =>
    match jsonExtract l with
    | some w => sRepAll l w expr == l
    | none => false)

/-- Path joined with `'/'`, the string representation the claims sort by. -/
def joinPath (p : List String) : String := String.intercalate "/" p

/-- The whole-file result contributed by one matching line of the update
primitives: `contents.replace(line, line.replace(old_value, value))`. -/
def updFinal (extract : String → Option String) (contents value line : String) :
    Option String :=
  (updLine extract value line).map (fun nl => sRepAll contents line nl)

/-! ### Lemmas about the Rust string model -/

theorem leadsWith_append : ∀ {pat s : List Char}, leadsWith pat s = true →
    pat ++ s.drop pat.length = s
  | [], s, _ => by simp
  | a :: as, [], h => by simp [leadsWith] at h
  | a :: as, b :: bs, h => by
    simp only [leadsWith, Bool.and_eq_true, beq_iff_eq] at h
    obtain ⟨rfl, h2⟩ := h
    simpa using leadsWith_append h2

theorem repFuel_self {p : Char} {ps : List Char} :
    ∀ (fuel : Nat) (s : List Char), s.length ≤ fuel → repFuel p ps (p :: ps) fuel s = s := by
  intro fuel
  induction fuel with
  | zero => intro s h; rfl
  | succ n ih =>
    intro s h
    cases s with
    | nil => rfl
    | cons c s' =>
      by_cases hl : leadsWith (p :: ps) (c :: s') = true
      · have hdr : (p :: ps) ++ s'.drop ps.length = c :: s' := leadsWith_append hl
        have hlen : (s'.drop ps.length).length ≤ n := by
          have h1 : s'.length ≤ n := Nat.le_of_succ_le_succ h
          exact le_trans (by simp) h1
        simp only [repFuel, hl, if_true, ih _ hlen]
        exact hdr
      · have h1 : s'.length ≤ n := Nat.le_of_succ_le_succ h
        simp only [repFuel, hl, if_false, ih _ h1]
        simp [hl]

theorem repAll_self (s pat : List Char) : repAll s pat pat = s := by
  cases pat with
  | nil =>
    show [] ++ s.flatMap (fun c => c :: []) = s
    simp
  | cons p ps => exact repFuel_self s.length s (le_refl _)

theorem sRepAll_self (s pat : String) : sRepAll s pat pat = s := by
  apply String.ext
  simpa [sRepAll] using repAll_self s.data pat.data

/-! ### The line loops of the read and update primitives -/

theorem foldlM_if_filter (P : String → Bool) (f : String → Option String) :
    ∀ (L : List String) (acc : String),
      L.foldlM (fun v line => if P line then f line else some v) acc =
        (L.filter P).foldlM (fun _ line => f line) acc := by
  intro L
  induction L with
  | nil => intro acc; rfl
  | cons l L ih =>
    intro acc
    by_cases h : P l = true
    · rw [List.foldlM_cons, List.filter_cons_of_pos h, List.foldlM_cons]
      simp only [h, if_true]
      cases f l with
      | none => rfl
      | some w => exact ih w
    · rw [List.foldlM_cons, List.filter_cons_of_neg (by simpa using h)]
      simp only [h, if_false]
      exact ih acc

theorem foldlM_const_last (f : String → Option String) :
    ∀ (M : List String) (acc : String), (∀ l ∈ M, (f l).isSome) →
      M.foldlM (fun _ line => f line) acc =
        (match M.getLast? with
         | none => some acc
         | some l => f l) := by
  intro M
  induction M with
  | nil => intro acc _; rfl
  | cons m M ih =>
    intro acc h
    obtain ⟨w, hw⟩ := Option.isSome_iff_exists.mp (h m (List.mem_cons_self _ _))
    cases M with
    | nil => simp [List.foldlM_cons, hw]
    | cons m2 M2 =>
      rw [List.foldlM_cons, hw]
      show (m2 :: M2).foldlM (fun _ line => f line) w = _
      rw [ih w (fun l hl => h l (List.mem_cons_of_mem _ hl))]
      rw [List.getLast?_cons_cons]
      cases hg : (m2 :: M2).getLast? with
      | none => exact absurd hg (by simp)
      | some l => rfl

theorem getValueAux_eq (extract : String → Option String) (contents key : String)
    (h : ∀ l ∈ matchingLines contents key, (extract l).isSome) :
    getValueAux extract key (sLines contents) =
      (match (matchingLines contents key).getLast? with
       | none => some ""
       | some l => extract l) := by
  unfold getValueAux
  rw [foldlM_if_filter (fun line => sContains line key) extract (sLines contents) ""]
  exact foldlM_const_last extract _ "" h

theorem updValueAux_eq (extract : String → Option String) (contents key value : String)
    (h : ∀ l ∈ matchingLines contents key, (extract l).isSome) :
    updValueAux extract contents key value =
      (match (matchingLines contents key).getLast? with
       | none => some contents
       | some l => (updFinal extract contents value l).map
           (fun nc => if nc = "" then contents else nc)) := by
  unfold updValueAux
  rw [show (fun (nc line : String) =>
        if sContains line key then (updLine extract value line).map (fun nl => sRepAll contents line nl)
        else some nc) =
      (fun (nc line : String) =>
        if sContains line key then updFinal extract contents value line else some nc) from rfl]
  rw [foldlM_if_filter (fun line => sContains line key) (updFinal extract contents value)
    (sLines contents) ""]
  rw [show List.filter (fun line => sContains line key) (sLines contents) =
    matchingLines contents key from rfl]
  have hok : ∀ l ∈ matchingLines contents key, (updFinal extract contents value l).isSome := by
    intro l hl
    simpa [updFinal, updLine] using h l hl
  rw [foldlM_const_last (updFinal extract contents value) _ "" hok]
  cases hL : (matchingLines contents key).getLast? with
  | none => rfl
  | some l =>
    have hmem : l ∈ matchingLines contents key := List.mem_of_mem_getLast? hL
    obtain ⟨w, hw⟩ := Option.isSome_iff_exists.mp (hok l hmem)
    simp [hw]

theorem updValueAux_nomatch (extract : String → Option String) (contents key value : String)
    (h : matchingLines contents key = []) :
    updValueAux extract contents key value = some contents := by
  rw [updValueAux_eq extract contents key value (by simp [h]), h]
  rfl

theorem updValueAux_noop (extract : String → Option String) (contents key value : String)
    (h1 : ∀ l ∈ matchingLines contents key, (extract l).isSome)
    (h2 : ∀ l w, (matchingLines contents key).getLast? = some l → extract l = some w →
      sRepAll l w value = l) :
    updValueAux extract contents key value = some contents := by
  rw [updValueAux_eq extract contents key value h1]
  cases hL : (matchingLines contents key).getLast? with
  | none => rfl
  | some l =>
    have hmem : l ∈ matchingLines contents key := List.mem_of_mem_getLast? hL
    obtain ⟨w, hw⟩ := Option.isSome_iff_exists.mp (h1 l hmem)
    simp only [updFinal, updLine, hw, Option.map_some']
    rw [h2 l w hL hw, sRepAll_self]
    simp

/-! ### Deduplication preserves first-appearance order -/

theorem foldl_dedupAppend (l : List String) :
    ∀ acc : List String, l.foldl dedupAppend acc =
      acc ++ firstSeen (l.filter (fun b => !acc.contains b)) := by
  induction l with
  | nil => intro acc; simp [firstSeen]
  | cons a l ih =>
    intro acc
    by_cases h : acc.contains a = true
    · rw [List.foldl_cons, show dedupAppend acc a = acc from by unfold dedupAppend; rw [if_pos h],
        ih, List.filter_cons_of_neg (by rw [h]; decide)]
    · rw [List.foldl_cons,
        show dedupAppend acc a = acc ++ [a] from by unfold dedupAppend; rw [if_neg h],
        ih, List.filter_cons_of_pos (by
          cases hb : acc.contains a with
          | true => exact absurd hb h
          | false => simp [hb])]
      have hfil : l.filter (fun b => !(acc ++ [a]).contains b) =
          (l.filter (fun b => !acc.contains b)).filter (fun b => b != a) := by
        rw [List.filter_filter]
        apply List.filter_congr
        intro b _
        by_cases hba : b = a
        · subst hba; simp
        · simp [List.contains_eq_any_beq, hba]
      rw [hfil, firstSeen, List.append_assoc]
      rfl

theorem dedupTerms_eq_firstSeen (l : List String) : dedupTerms l = firstSeen l := by
  have h := foldl_dedupAppend l []
  simpa [dedupTerms] using h

theorem mem_firstSeen : ∀ (l : List String) (v : String), v ∈ firstSeen l ↔ v ∈ l := by
  intro l
  induction l using firstSeen.induct with
  | case1 => intro v; simp [firstSeen]
  | case2 a l ih =>
    intro v
    rw [firstSeen]
    by_cases hva : v = a
    · subst hva; simp
    · simp only [List.mem_cons, hva, false_or]
      rw [ih v, List.mem_filter]
      simp [hva]

theorem nodup_firstSeen : ∀ l : List String, (firstSeen l).Nodup := by
  intro l
  induction l using firstSeen.induct with
  | case1 => simp [firstSeen]
  | case2 a l ih =>
    rw [firstSeen]
    refine List.Nodup.cons ?_ ih
    intro hmem
    rw [mem_firstSeen, List.mem_filter] at hmem
    simp at hmem

/-! ### String-append facts used by the expression builder -/

theorem sappend_assoc (a b c : String) : a ++ b ++ c = a ++ (b ++ c) := by
  apply String.ext
  simp [String.data_append, List.append_assoc]

theorem sappend_empty (a : String) : a ++ "" = a := by
  apply String.ext
  simp [String.data_append]

theorem foldl_andStep_pos : ∀ (ts : List String) (s : String) (n : Nat),
    ts.foldl andStep (s, n + 1) = (s ++ joinAnd.joinTail ts, n + 1 + ts.length) := by
  intro ts
  induction ts with
  | nil => intro s n; simp [joinAnd.joinTail, sappend_empty]
  | cons t ts ih =>
    intro s n
    rw [List.foldl_cons, show andStep (s, n + 1) t = (s ++ " AND " ++ t, n + 2) from by
      simp [andStep], ih]
    rw [joinAnd.joinTail]
    simp only [Prod.mk.injEq]
    constructor
    · simp [sappend_assoc]
    · simp only [List.length_cons]; omega

theorem foldl_andStep_zero : ∀ (ts : List String) (s : String),
    ts.foldl andStep (s, 0) = (s ++ joinAnd ts, ts.length) := by
  intro ts s
  cases ts with
  | nil => simp [joinAnd, sappend_empty]
  | cons t ts =>
    rw [List.foldl_cons, show andStep (s, 0) t = (s ++ t, 1) from by simp [andStep],
      foldl_andStep_pos, joinAnd]
    simp only [Prod.mk.injEq]
    constructor
    · simp [sappend_assoc]
    · simp only [List.length_cons]; omega

/-! ### The traversal order of the walker -/

theorem charLtb_asymm (a b : Char) (h : charLtb a b = true) : charLtb b a = false := by
  simp only [charLtb, Char.toNat, decide_eq_true_eq] at h
  simp only [charLtb, Char.toNat, decide_eq_false_iff_not]
  omega

theorem charLtb_trans (a b c : Char) (h1 : charLtb a b = true) (h2 : charLtb b c = true) :
    charLtb a c = true := by
  simp only [charLtb, Char.toNat, decide_eq_true_eq] at h1 h2 ⊢
  omega

theorem charLtb_connex (a b : Char) (h1 : charLtb a b = false) (h2 : charLtb b a = false) :
    a = b := by
  simp only [charLtb, Char.toNat, decide_eq_false_iff_not] at h1 h2
  exact Char.ext (UInt32.ext (by omega))

theorem strLtb_asymm : ∀ s t : List Char, strLtb s t = true → strLtb t s = false
  | [], [], h => by simp [strLtb] at h
  | [], _ :: _, _ => by simp [strLtb]
  | _ :: _, [], h => by simp [strLtb] at h
  | a :: s, b :: t, h => by
    simp only [strLtb] at h ⊢
    by_cases hab : charLtb a b = true
    · rw [if_neg (by simp [charLtb_asymm a b hab]), if_pos hab]
    · by_cases hba : charLtb b a = true
      · rw [if_neg hab, if_pos hba] at h
        simp at h
      · rw [if_neg hab, if_neg hba] at h
        rw [if_neg hba, if_neg hab]
        exact strLtb_asymm s t h

theorem strLtb_trans : ∀ s t u : List Char,
    strLtb s t = true → strLtb t u = true → strLtb s u = true
  | [], _, _ :: _, _, _ => by simp [strLtb]
  | [], [], [], h1, _ => by simp [strLtb] at h1
  | [], _ :: _, [], _, h2 => by simp [strLtb] at h2
  | _ :: _, [], _, h1, _ => by simp [strLtb] at h1
  | _ :: _, _ :: _, [], _, h2 => by simp [strLtb] at h2
  | a :: s, b :: t, c :: u, h1, h2 => by
    simp only [strLtb] at h1 h2 ⊢
    by_cases hab : charLtb a b = true
    · by_cases hbc : charLtb b c = true
      · rw [if_pos (charLtb_trans a b c hab hbc)]
      · by_cases hcb : charLtb c b = true
        · rw [if_neg hbc, if_pos hcb] at h2
          simp at h2
        · rw [Bool.not_eq_true] at hbc hcb
          have hbceq : b = c := charLtb_connex b c hbc hcb
          subst hbceq
          rw [if_pos hab]
    · by_cases hba : charLtb b a = true
      · rw [if_neg hab, if_pos hba] at h1
        simp at h1
      · rw [Bool.not_eq_true] at hab hba
        have habeq : a = b := charLtb_connex a b hab hba
        subst habeq
        rw [if_neg (by simp [hab]), if_neg (by simp [hba])] at h1
        by_cases hac : charLtb a c = true
        · rw [if_pos hac]
        · by_cases hca : charLtb c a = true
          · rw [if_neg hac, if_pos hca] at h2
            simp at h2
          · rw [if_neg hac, if_neg hca] at h2 ⊢
            exact strLtb_trans s t u h1 h2

theorem strLtb_connex : ∀ s t : List Char,
    strLtb s t = false → strLtb t s = false → s = t
  | [], [], _, _ => rfl
  | [], _ :: _, h1, _ => by simp [strLtb] at h1
  | _ :: _, [], _, h2 => by simp [strLtb] at h2
  | a :: s, b :: t, h1, h2 => by
    simp only [strLtb] at h1 h2
    by_cases hab : charLtb a b = true
    · rw [if_pos hab] at h1
      simp at h1
    · by_cases hba : charLtb b a = true
      · rw [if_pos hba] at h2
        simp at h2
      · rw [Bool.not_eq_true] at hab hba
        have habeq : a = b := charLtb_connex a b hab hba
        subst habeq
        rw [if_neg (by simp [hab]), if_neg (by simp [hba])] at h1
        rw [if_neg (by simp [hba]), if_neg (by simp [hab])] at h2
        rw [strLtb_connex s t h1 h2]

theorem strLt_asymm (a b : String) (h : strLt a b = true) : strLt b a = false :=
  strLtb_asymm a.data b.data h

theorem strLt_trans (a b c : String) (h1 : strLt a b = true) (h2 : strLt b c = true) :
    strLt a c = true :=
  strLtb_trans a.data b.data c.data h1 h2

theorem strLt_connex (a b : String) (h1 : strLt a b = false) (h2 : strLt b a = false) :
    a = b :=
  String.ext (strLtb_connex a.data b.data h1 h2)

theorem pathLt_asymm : ∀ p q : List String, pathLt p q = true → pathLt q p = false
  | [], [], h => by simp [pathLt] at h
  | [], _ :: _, _ => by simp [pathLt]
  | _ :: _, [], h => by simp [pathLt] at h
  | a :: as, b :: bs, h => by
    simp only [pathLt] at h ⊢
    by_cases hab : strLt a b = true
    · rw [if_neg (by simp [strLt_asymm a b hab]), if_pos hab]
    · by_cases hba : strLt b a = true
      · rw [if_neg hab, if_pos hba] at h
        simp at h
      · rw [if_neg hab, if_neg hba] at h
        rw [if_neg hba, if_neg hab]
        exact pathLt_asymm as bs h

theorem pathLt_trans : ∀ p q r : List String,
    pathLt p q = true → pathLt q r = true → pathLt p r = true
  | [], _, _ :: _, _, _ => by simp [pathLt]
  | [], [], [], h1, _ => by simp [pathLt] at h1
  | [], _ :: _, [], _, h2 => by simp [pathLt] at h2
  | _ :: _, [], _, h1, _ => by simp [pathLt] at h1
  | _ :: _, _ :: _, [], _, h2 => by simp [pathLt] at h2
  | a :: as, b :: bs, c :: cs, h1, h2 => by
    simp only [pathLt] at h1 h2 ⊢
    by_cases hab : strLt a b = true
    · by_cases hbc : strLt b c = true
      · rw [if_pos (strLt_trans a b c hab hbc)]
      · by_cases hcb : strLt c b = true
        · rw [if_neg hbc, if_pos hcb] at h2
          simp at h2
        · rw [Bool.not_eq_true] at hbc hcb
          have hbceq : b = c := strLt_connex b c hbc hcb
          subst hbceq
          rw [if_pos hab]
    · by_cases hba : strLt b a = true
      · rw [if_neg hab, if_pos hba] at h1
        simp at h1
      · rw [Bool.not_eq_true] at hab hba
        have habeq : a = b := strLt_connex a b hab hba
        subst habeq
        rw [if_neg (by simp [hab]), if_neg (by simp [hba])] at h1
        by_cases hac : strLt a c = true
        · rw [if_pos hac]
        · by_cases hca : strLt c a = true
          · rw [if_neg hac, if_pos hca] at h2
            simp at h2
          · rw [if_neg hac, if_neg hca] at h2 ⊢
            exact pathLt_trans as bs cs h1 h2

theorem pathLt_connex : ∀ p q : List String,
    pathLt p q = false → pathLt q p = false → p = q
  | [], [], _, _ => rfl
  | [], _ :: _, h1, _ => by simp [pathLt] at h1
  | _ :: _, [], _, h2 => by simp [pathLt] at h2
  | a :: as, b :: bs, h1, h2 => by
    simp only [pathLt] at h1 h2
    by_cases hab : strLt a b = true
    · rw [if_pos hab] at h1
      simp at h1
    · by_cases hba : strLt b a = true
      · rw [if_pos hba] at h2
        simp at h2
      · rw [Bool.not_eq_true] at hab hba
        have habeq : a = b := strLt_connex a b hab hba
        subst habeq
        rw [if_neg (by simp [hab]), if_neg (by simp [hba])] at h1
        rw [if_neg (by simp [hba]), if_neg (by simp [hab])] at h2
        rw [pathLt_connex as bs h1 h2]

instance : IsTrans (List String) pathLe :=
  ⟨by
    intro a b c hab hbc
    unfold pathLe at *
    by_cases hca : pathLt c a = true
    · exfalso
      by_cases hab2 : pathLt a b = true
      · by_cases hbc2 : pathLt b c = true
        · exact absurd hca (by simp [pathLt_asymm _ _ (pathLt_trans a b c hab2 hbc2)])
        · have hbceq : b = c := pathLt_connex b c (by simpa using hbc2) hbc
          subst hbceq
          exact absurd hca (by simp [pathLt_asymm _ _ hab2])
      · have habeq : a = b := pathLt_connex a b (by simpa using hab2) hab
        subst habeq
        exact absurd hca (by simp [hbc])
    · simpa using hca⟩

instance : IsTotal (List String) pathLe :=
  ⟨by
    intro a b
    unfold pathLe
    by_cases h : pathLt b a = true
    · exact Or.inr (pathLt_asymm b a h)
    · exact Or.inl (by simpa using h)⟩

instance : IsAntisymm (List String) pathLe :=
  ⟨by
    intro a b hab hba
    exact pathLt_connex a b hba hab⟩

theorem sorted_get_sr_paths (fs : FS) (root : List String) :
    (get_sr_paths fs root).Sorted pathLe :=
  List.sorted_insertionSort pathLe _

theorem mem_get_sr_paths (fs : FS) (root p : List String) :
    p ∈ get_sr_paths fs root ↔ isMarkerUnder root p = true ∧ p ∈ fs.map Prod.fst := by
  rw [get_sr_paths, List.mem_insertionSort, List.mem_filter]
  exact and_comm

theorem get_sr_paths_perm (fs1 fs2 : FS) (root : List String) (h : fs1.Perm fs2) :
    get_sr_paths fs1 root = get_sr_paths fs2 root := by
  apply List.eq_of_perm_of_sorted _ (sorted_get_sr_paths fs1 root) (sorted_get_sr_paths fs2 root)
  exact (List.perm_insertionSort _ _).trans
    (((h.map Prod.fst).filter _).trans (List.perm_insertionSort _ _).symm)

/-! ### Filesystem lemmas -/

theorem keys_fsWrite (fs : FS) (p : List String) (c : String) :
    (fsWrite fs p c).map Prod.fst = fs.map Prod.fst := by
  induction fs with
  | nil => rfl
  | cons e fs ih =>
    show (if e.1 = p then (p, c) else e).1 :: (fsWrite fs p c).map Prod.fst = _
    by_cases h : e.1 = p
    · simp [h, ih]
    · simp [h, ih]

theorem get_sr_paths_fsWrite (fs : FS) (p : List String) (c : String) (root : List String) :
    get_sr_paths (fsWrite fs p c) root = get_sr_paths fs root := by
  rw [get_sr_paths, get_sr_paths, keys_fsWrite]

theorem lookup_fsWrite_ne (fs : FS) (p q : List String) (c : String) (h : q ≠ p) :
    lookupFS (fsWrite fs p c) q = lookupFS fs q := by
  induction fs with
  | nil => rfl
  | cons e fs ih =>
    show lookupFS ((if e.1 = p then (p, c) else e) :: fsWrite fs p c) q = _
    by_cases he : e.1 = p
    · rw [if_pos he]
      show (if p = q then some c else lookupFS (fsWrite fs p c) q) = _
      rw [if_neg (fun hpq => h hpq.symm), ih, lookupFS]
      rw [if_neg (by rw [he]; exact fun hpq => h hpq.symm)]
    · rw [if_neg he]
      show (if e.1 = q then some e.2 else lookupFS (fsWrite fs p c) q) = _
      by_cases heq : e.1 = q
      · rw [if_pos heq, lookupFS, if_pos heq]
      · rw [if_neg heq, ih, lookupFS, if_neg heq]

theorem lookup_fsWrite_self (fs : FS) (p : List String) (c : String) :
    lookupFS (fsWrite fs p c) p = (lookupFS fs p).map (fun _ => c) := by
  induction fs with
  | nil => rfl
  | cons e fs ih =>
    show lookupFS ((if e.1 = p then (p, c) else e) :: fsWrite fs p c) p = _
    by_cases he : e.1 = p
    · rw [if_pos he]
      show (if p = p then some c else _) = _
      rw [if_pos rfl, lookupFS, if_pos he]
      rfl
    · rw [if_neg he]
      show (if e.1 = p then some e.2 else lookupFS (fsWrite fs p c) p) = _
      rw [if_neg he, ih, lookupFS, if_neg he]

theorem lookup_mem_keys (fs : FS) (p : List String) (c : String)
    (h : lookupFS fs p = some c) : p ∈ fs.map Prod.fst := by
  induction fs with
  | nil => simp [lookupFS] at h
  | cons e fs ih =>
    rw [lookupFS] at h
    by_cases he : e.1 = p
    · simp [he]
    · rw [if_neg he] at h
      simp [ih h]

theorem marker_getLast (root p : List String) (h : isMarkerUnder root p = true) :
    p.getLast? = some ".sr" := by
  simp only [isMarkerUnder, Bool.and_eq_true, beq_iff_eq] at h
  exact h.2

theorem marker_ne_manifest (root p : List String) (h : isMarkerUnder root p = true) :
    p ≠ root ++ ["package.json"] := by
  intro he
  have hl := marker_getLast root p h
  rw [he, List.getLast?_concat] at hl
  exact absurd hl (by decide)

theorem leadsWithL_append (root l : List String) : leadsWithL root (root ++ l) = true := by
  induction root with
  | nil => rfl
  | cons a as ih => simpa [leadsWithL] using ih

/-! ### Amalgamation-level lemmas -/

theorem foldlM_congr_option {α β : Type} (f g : β → α → Option β) :
    ∀ (l : List α) (acc : β), (∀ b a, a ∈ l → f b a = g b a) →
      l.foldlM f acc = l.foldlM g acc := by
  intro l
  induction l with
  | nil => intro acc _; rfl
  | cons x l ih =>
    intro acc h
    rw [List.foldlM_cons, List.foldlM_cons, h acc x (List.mem_cons_self _ _)]
    cases g acc x with
    | none => rfl
    | some b => exact ih b (fun b' a ha => h b' a (List.mem_cons_of_mem _ ha))

theorem amalgSrcDoc_fsWrite (fs : FS) (mp : List String) (c : String)
    (markers : List (List String)) (hne : ∀ p ∈ markers, p ≠ mp) :
    amalgSrcDoc (fsWrite fs mp c) markers = amalgSrcDoc fs markers := by
  unfold amalgSrcDoc
  apply foldlM_congr_option _ _ markers ([], [])
  intro b p hp
  rw [lookup_fsWrite_ne fs mp p c (hne p hp)]

theorem amalgamate_eq (fs : FS) (root : List String) (sd : List String × List String)
    (hsd : amalgSrcDoc fs (get_sr_paths fs root) = some sd) :
    amalgamate_licenses fs root =
      (match lookupFS fs (root ++ ["package.json"]) with
       | none => some (fs, SRzero)
       | some c => do
           let c1 ← update_json_value_c c "license" (licenseExpr sd.1 sd.2)
           some (fsWrite fs (root ++ ["package.json"]) c1, SRzero)) := by
  unfold amalgamate_licenses
  rw [hsd]
  rfl

/-! ### Claim theorems -/

/-- C2: the expression built by an amalgamation pass equals `"("` ++ the
source terms joined by `" AND "` ++ a single `" AND "` junction exactly when
both deduplicated lists are non-empty ++ the doc terms joined by `" AND "`
++ `")"`; in particular one source term `X` and one doc term `Y` give
`(X AND Y)`, and one source term `X` with no doc terms gives `(X)` with no
dangling `AND`. -/
theorem c2_expression_shape :
    (∀ src doc : List String,
      licenseExpr src doc =
        "(" ++ joinAnd src ++ (if src ≠ [] ∧ doc ≠ [] then " AND " else "") ++
          joinAnd doc ++ ")") ∧
    (∀ X Y : String, licenseExpr [X] [Y] = "(" ++ X ++ " AND " ++ Y ++ ")") ∧
    (∀ X : String, licenseExpr [X] [] = "(" ++ X ++ ")") := by
  refine ⟨?_, ?_, ?_⟩
  · intro src doc
    by_cases hs : src = []
    · subst hs
      apply String.ext
      simp [licenseExpr, foldl_andStep_zero, joinAnd, String.data_append]
    · by_cases hd : doc = []
      · subst hd
        apply String.ext
        simp [licenseExpr, foldl_andStep_zero, joinAnd, hs, String.data_append]
      · have h1 : 0 < src.length := List.length_pos.mpr hs
        have h2 : 0 < doc.length := List.length_pos.mpr hd
        apply String.ext
        simp [licenseExpr, foldl_andStep_zero, hs, hd, h1, h2, String.data_append]
  · intro X Y
    apply String.ext
    simp [licenseExpr, List.foldl, andStep, String.data_append]
  · intro X
    apply String.ext
    simp [licenseExpr, List.foldl, andStep, String.data_append]

/-- C3: the amalgamation dedup appends a value only when not already present,
so each category's term list equals the first-occurrence subsequence of the
extracted values: duplicate-free, ordered by first appearance during the
walk (not alphabetically), and `[A, B, A, C]` yields `[A, B, C]`. -/
theorem c3_dedup_first_seen :
    (∀ l : List String, dedupTerms l = firstSeen l) ∧
    (∀ l : List String, (dedupTerms l).Nodup) ∧
    (∀ (l : List String) (v : String), v ∈ dedupTerms l ↔ v ∈ l) ∧
    dedupTerms ["A", "B", "A", "C"] = ["A", "B", "C"] := by
  refine ⟨dedupTerms_eq_firstSeen, ?_, ?_, by decide⟩
  · intro l
    rw [dedupTerms_eq_firstSeen]
    exact nodup_firstSeen l
  · intro l v
    rw [dedupTerms_eq_firstSeen]
    exact mem_firstSeen l v

/-- C9: because both the `current` and the `parent` check of `get_level`
inspect the same file `target_dir/.sr`, the function returns `2` when the
directory contains a `.sr` file and `0` when it does not; the documented
value `1` is never returned. -/
theorem c9_get_level_never_one :
    ∀ (fs : FS) (d : List String),
      get_level fs d = (if pathExists fs (d ++ [".sr"]) then 2 else 0) ∧
      get_level fs d ≠ 1 := by
  intro fs d
  by_cases h : pathExists fs (d ++ [".sr"]) = true
  · simp [get_level, h]
  · rw [Bool.not_eq_true] at h
    simp [get_level, h]

/-- C10: `combine_sroutputs` returns the destination's `wrapped_status`
unchanged (a non-zero `wrapped_status` of the source is discarded); the
`status` is taken from the source only when the destination's status is 0,
and `stdout` / `stderr` are concatenated. -/
theorem c10_combine_sroutputs_drops_wrapped :
    ∀ d s : SROutput,
      (combine_sroutputs d s).wrapped_status = d.wrapped_status ∧
      (combine_sroutputs d s).status =
        (if d.status = 0 ∧ s.status ≠ 0 then s.status else d.status) ∧
      (combine_sroutputs d s).stdout = d.stdout ++ s.stdout ∧
      (combine_sroutputs d s).stderr = d.stderr ++ s.stderr := by
  intro d s
  by_cases h : d.status = 0 ∧ s.status ≠ 0 <;>
    simp [combine_sroutputs, h]

/-- C5 (amended): the read primitive takes the segment of the matching line
between the first and the second `':'` (not everything after the first
`':'`), removes every `','` anywhere in that segment (the JSON variant also
removes every `'"'`; the YAML variant keeps quotes), and trims; when several
lines contain the key the last matching line's value wins, and with no
matching line the empty string is returned. -/
theorem c5_read_primitive_amended (contents key : String)
    (hy : ∀ l ∈ matchingLines contents key, (yamlExtract l).isSome)
    (hj : ∀ l ∈ matchingLines contents key, (jsonExtract l).isSome) :
    get_yaml_value_c contents key =
      (match (matchingLines contents key).getLast? with
       | none => some ""
       | some l => yamlExtract l) ∧
    get_json_value_c contents key =
      (match (matchingLines contents key).getLast? with
       | none => some ""
       | some l => jsonExtract l) :=
  ⟨getValueAux_eq yamlExtract contents key hy, getValueAux_eq jsonExtract contents key hj⟩

/-- C5 witness: on a file with two `license` lines the last one wins. -/
theorem c5_read_primitive_witness :
    get_yaml_value_c "license: a\nlicense: b\nname: n" "license" =
      (match (matchingLines "license: a\nlicense: b\nname: n" "license").getLast? with
       | none => some ""
       | some l => yamlExtract l) ∧
    get_json_value_c "license: a\nlicense: b\nname: n" "license" =
      (match (matchingLines "license: a\nlicense: b\nname: n" "license").getLast? with
       | none => some ""
       | some l => jsonExtract l) :=
  c5_read_primitive_amended "license: a\nlicense: b\nname: n" "license"
    (by decide) (by decide)

/-- C5 counterexample: on `license: a:b` the code keeps only the segment
between the two colons and returns `a`, while the claim's rule (everything
after the first `':'`) yields `a:b`; on `license: a,b,c` the JSON variant
deletes every comma and returns `abc`, while the claim's rule (strip only a
trailing `','`) yields `a,b,c`. -/
theorem c5_read_primitive_counterexample :
    get_yaml_value_c "license: a:b" "license" = some "a" ∧
    specExtractValue "license: a:b" = "a:b" ∧
    ("a" : String) ≠ "a:b" ∧
    get_json_value_c "license: a,b,c" "license" = some "abc" ∧
    specExtractValue "license: a,b,c" = "a,b,c" ∧
    ("abc" : String) ≠ "a,b,c" := by
  refine ⟨by decide, by decide, by decide, by decide, by decide, by decide⟩

/-- C6 (amended): for every line containing the key the write primitive
replaces *every* occurrence of that line's extracted current value within
the line, and forms the whole-file text by replacing *every* occurrence of
the original line inside the *original* file content; each matching line
recomputes from the original content, so when several lines match only the
last matching line's modification survives. -/
theorem c6_write_primitive_amended (contents key value : String)
    (hj : ∀ l ∈ matchingLines contents key, (jsonExtract l).isSome)
    (hy : ∀ l ∈ matchingLines contents key, (yamlExtract l).isSome) :
    update_json_value_c contents key value =
      (match (matchingLines contents key).getLast? with
       | none => some contents
       | some l => (updFinal jsonExtract contents value l).map
           (fun nc => if nc = "" then contents else nc)) ∧
    update_yaml_value_c contents key value =
      (match (matchingLines contents key).getLast? with
       | none => some contents
       | some l => (updFinal yamlExtract contents value l).map
           (fun nc => if nc = "" then contents else nc)) :=
  ⟨updValueAux_eq jsonExtract contents key value hj,
   updValueAux_eq yamlExtract contents key value hy⟩

/-- C6 witness: with two different matching lines only the last one's
rewrite survives, computed from the original content. -/
theorem c6_write_primitive_witness :
    update_json_value_c "lic: a\nlic: b" "lic" "X" =
      (match (matchingLines "lic: a\nlic: b" "lic").getLast? with
       | none => some "lic: a\nlic: b"
       | some l => (updFinal jsonExtract "lic: a\nlic: b" "X" l).map
           (fun nc => if nc = "" then "lic: a\nlic: b" else nc)) ∧
    update_yaml_value_c "lic: a\nlic: b" "lic" "X" =
      (match (matchingLines "lic: a\nlic: b" "lic").getLast? with
       | none => some "lic: a\nlic: b"
       | some l => (updFinal yamlExtract "lic: a\nlic: b" "X" l).map
           (fun nc => if nc = "" then "lic: a\nlic: b" else nc)) :=
  c6_write_primitive_amended "lic: a\nlic: b" "lic" "X" (by decide) (by decide)

/-- C6 counterexample: on the line `lic: lic` with key `lic` the code
replaces both occurrences of the current value `lic` and produces `X: X`,
while first-occurrence replacement as claimed yields `X: lic`; and on
`lic: a` / `lic: b` the code keeps only the last line's modification
(recomputed from the original content), while the claimed accumulation
yields both lines modified. -/
theorem c6_write_primitive_counterexample :
    update_json_value_c "lic: lic" "lic" "X" = some "X: X" ∧
    specUpdateValue "lic: lic" "lic" "X" = "X: lic" ∧
    ("X: X" : String) ≠ "X: lic" ∧
    update_json_value_c "lic: a\nlic: b" "lic" "X" = some "lic: a\nlic: X" ∧
    specUpdateValue "lic: a\nlic: b" "lic" "X" = "lic: X\nlic: X" ∧
    ("lic: a\nlic: X" : String) ≠ "lic: X\nlic: X" := by
  refine ⟨by decide, by decide, by decide, by decide, by decide, by decide⟩

/-- C7: when no line of the manifest contains the key, the write primitive
leaves the file content unchanged, and the surrounding amalgamation still
returns the all-zero `SROutput` (success), with the manifest content after
the call equal to the content before it. -/
theorem c7_no_matching_key_line :
    (∀ contents key value : String, matchingLines contents key = [] →
      update_json_value_c contents key value = some contents) ∧
    (∀ (fs : FS) (root : List String) (m : String) (sd : List String × List String),
      amalgSrcDoc fs (get_sr_paths fs root) = some sd →
      lookupFS fs (root ++ ["package.json"]) = some m →
      matchingLines m "license" = [] →
      amalgamate_licenses fs root =
        some (fsWrite fs (root ++ ["package.json"]) m, SRzero) ∧
      lookupFS (fsWrite fs (root ++ ["package.json"]) m) (root ++ ["package.json"]) =
        some m) := by
  constructor
  · intro contents key value h
    exact updValueAux_nomatch jsonExtract contents key value h
  · intro fs root m sd hsd hm hml
    have hupd : update_json_value_c m "license" (licenseExpr sd.1 sd.2) = some m :=
      updValueAux_nomatch jsonExtract m "license" _ hml
    constructor
    · rw [amalgamate_eq fs root sd hsd, hm]
      show (do
        let c1 ← update_json_value_c m "license" (licenseExpr sd.1 sd.2)
        some (fsWrite fs (root ++ ["package.json"]) c1, SRzero) : Option (FS × SROutput)) = _
      rw [hupd]
      rfl
    · rw [lookup_fsWrite_self, hm]
      rfl

/-- C7 witness: a manifest with no `license` line is left unchanged and the
amalgamation of its component tree reports the all-zero output. -/
theorem c7_no_matching_key_line_witness :
    update_json_value_c "name: x\nversion: 1" "license" "(MIT AND CC0-1.0)" =
      some "name: x\nversion: 1" ∧
    amalgamate_licenses
        [(["r", ".sr"], "source_license: MIT,\ndocumentation_license: CC0-1.0"),
         (["r", "package.json"], "name: x\nversion: 1")] ["r"] =
      some (fsWrite
        [(["r", ".sr"], "source_license: MIT,\ndocumentation_license: CC0-1.0"),
         (["r", "package.json"], "name: x\nversion: 1")]
        (["r"] ++ ["package.json"]) "name: x\nversion: 1", SRzero) :=
  ⟨c7_no_matching_key_line.1 "name: x\nversion: 1" "license" "(MIT AND CC0-1.0)" (by decide),
   (c7_no_matching_key_line.2
      [(["r", ".sr"], "source_license: MIT,\ndocumentation_license: CC0-1.0"),
       (["r", "package.json"], "name: x\nversion: 1")]
      ["r"] "name: x\nversion: 1" (["MIT"], ["CC0-1.0"])
      (by decide) (by decide) (by decide)).1⟩

/-- C8 (amended): for a root with no filesystem entry below it (in
particular a root that does not exist) the walker silently returns the
empty sequence — the source discards every iterator error via
`filter_map(Result::ok)` and its return type carries no error — and
amalgamation succeeds, leaving the filesystem unchanged and returning the
all-zero `SROutput`; no `DirectoryAccessError` exists anywhere in the code. -/
theorem c8_missing_root_amended (fs : FS) (root : List String)
    (h : fs.all (fun e => !(leadsWithL root e.1 && decide (root.length < e.1.length))) = true) :
    get_sr_paths fs root = [] ∧
    amalgamate_licenses fs root = some (fs, SRzero) := by
  have hall := List.all_eq_true.mp h
  have hfil : (fs.map Prod.fst).filter (isMarkerUnder root) = [] := by
    rw [List.filter_eq_nil_iff]
    intro p hp hmark
    obtain ⟨e, he, rfl⟩ := List.mem_map.mp hp
    have he2 := hall e he
    rw [Bool.not_eq_true'] at he2
    simp only [isMarkerUnder, Bool.and_eq_true] at hmark
    rw [hmark.1.1.1, hmark.1.1.2] at he2
    simp at he2
  have hwalk : get_sr_paths fs root = [] := by
    rw [get_sr_paths, hfil]
    rfl
  refine ⟨hwalk, ?_⟩
  have hsd : amalgSrcDoc fs (get_sr_paths fs root) = some ([], []) := by
    rw [hwalk]
    rfl
  rw [amalgamate_eq fs root ([], []) hsd]
  have hmp : lookupFS fs (root ++ ["package.json"]) = none := by
    cases hl : lookupFS fs (root ++ ["package.json"]) with
    | none => rfl
    | some c =>
      exfalso
      obtain ⟨e, he, heq⟩ := List.mem_map.mp (lookup_mem_keys fs _ c hl)
      have he2 := hall e he
      rw [Bool.not_eq_true'] at he2
      rw [heq, leadsWithL_append] at he2
      simp at he2
  rw [hmp]

/-- C8 witness: a concrete filesystem and a root that does not exist. -/
theorem c8_missing_root_witness :
    get_sr_paths [(["home", "proj", ".sr"], "s")] ["nope"] = [] ∧
    amalgamate_licenses [(["home", "proj", ".sr"], "s")] ["nope"] =
      some ([(["home", "proj", ".sr"], "s")], SRzero) :=
  c8_missing_root_amended [(["home", "proj", ".sr"], "s")] ["nope"] (by decide)

/-- C8 counterexample: at a root that does not exist the walker succeeds
with the empty marker sequence and `amalgamate_licenses` returns the
all-zero (success) output with the filesystem untouched, instead of failing
with a `DirectoryAccessError` as the claim states. -/
theorem c8_missing_root_counterexample :
    get_sr_paths [(["home", "proj", ".sr"], "s"), (["home", "proj", "package.json"], "m")]
      ["gone"] = [] ∧
    amalgamate_licenses
        [(["home", "proj", ".sr"], "s"), (["home", "proj", "package.json"], "m")] ["gone"] =
      some ([(["home", "proj", ".sr"], "s"), (["home", "proj", "package.json"], "m")],
        SRzero) := by
  refine ⟨by decide, by decide⟩

/-- C4 (amended): the walker returns exactly the `.sr` files below the root
up to depth 100, in depth-first order with each directory's entries visited
in ascending order of their path strings — that is, ascending lexicographic
order on the paths as component lists (`pathLe`), not ascending order of the
joined path string; consequently, for a fixed tree the sequence is the same
regardless of the OS directory-enumeration order. -/
theorem c4_walker_order_amended :
    (∀ (fs1 fs2 : FS) (root : List String), fs1.Perm fs2 →
      get_sr_paths fs1 root = get_sr_paths fs2 root) ∧
    (∀ (fs : FS) (root : List String), (get_sr_paths fs root).Sorted pathLe) ∧
    (∀ (fs : FS) (root p : List String),
      p ∈ get_sr_paths fs root ↔ isMarkerUnder root p = true ∧ p ∈ fs.map Prod.fst) :=
  ⟨get_sr_paths_perm, sorted_get_sr_paths, mem_get_sr_paths⟩

/-- C4 witness: two enumeration orders of the same directory entries give
the same walker output. -/
theorem c4_walker_order_witness :
    get_sr_paths [(["r", "b", ".sr"], "1"), (["r", "a", ".sr"], "2")] ["r"] =
      get_sr_paths [(["r", "a", ".sr"], "2"), (["r", "b", ".sr"], "1")] ["r"] :=
  c4_walker_order_amended.1
    [(["r", "b", ".sr"], "1"), (["r", "a", ".sr"], "2")]
    [(["r", "a", ".sr"], "2"), (["r", "b", ".sr"], "1")]
    ["r"] (by decide)

/-- C4 counterexample: with markers `root/a/c/.sr` and `root/a!b/.sr` the
walk emits `root/a/c/.sr` first (per-directory order descends into `a`
before `a!b`), yet the joined path string `root/a!b/.sr` is strictly
smaller than `root/a/c/.sr` (`'!' < '/'`), so the output is not sorted
ascending by the path's string representation as the claim states. -/
theorem c4_walker_order_counterexample :
    get_sr_paths [(["root", "a", "c", ".sr"], ""), (["root", "a!b", ".sr"], "")] ["root"] =
      [["root", "a", "c", ".sr"], ["root", "a!b", ".sr"]] ∧
    strLt (joinPath ["root", "a!b", ".sr"]) (joinPath ["root", "a", "c", ".sr"]) = true := by
  refine ⟨by decide, by decide⟩

/-- C1 (amended): running `amalgamate_licenses` twice with no intervening
filesystem change yields byte-identical manifest content *provided* that
after the first run every manifest line containing `license` still splits
on a `':'`, and the last such line is left unchanged by replacing its
extracted value with the expression again (as happens for an ordinary
manifest whose single license line round-trips the written expression).
The unconditional claim fails: see the counterexample. -/
theorem c1_amalgamate_idempotent_amended
    (fs : FS) (root : List String) (fs1 : FS) (o1 : SROutput)
    (sd : List String × List String) (m1 : String)
    (hrun : amalgamate_licenses fs root = some (fs1, o1))
    (hsd : amalgSrcDoc fs (get_sr_paths fs root) = some sd)
    (hman : lookupFS fs1 (root ++ ["package.json"]) = some m1)
    (hok : allExtractOk m1 "license" = true)
    (hnoop : lastLineNoop m1 "license" (licenseExpr sd.1 sd.2) = true) :
    amalgamate_licenses fs1 root =
      some (fsWrite fs1 (root ++ ["package.json"]) m1, SRzero) ∧
    lookupFS (fsWrite fs1 (root ++ ["package.json"]) m1) (root ++ ["package.json"]) =
      some m1 := by
  rw [amalgamate_eq fs root sd hsd] at hrun
  cases hl : lookupFS fs (root ++ ["package.json"]) with
  | none =>
    rw [hl] at hrun
    have hrun2 : (some (fs, SRzero) : Option (FS × SROutput)) = some (fs1, o1) := hrun
    simp only [Option.some.injEq, Prod.mk.injEq] at hrun2
    obtain ⟨hfs1, -⟩ := hrun2
    rw [← hfs1, hl] at hman
    cases hman
  | some c =>
    rw [hl] at hrun
    have hrun2 : (do
        let c1 ← update_json_value_c c "license" (licenseExpr sd.1 sd.2)
        some (fsWrite fs (root ++ ["package.json"]) c1, SRzero) : Option (FS × SROutput)) =
        some (fs1, o1) := hrun
    cases hupd : update_json_value_c c "license" (licenseExpr sd.1 sd.2) with
    | none =>
      rw [hupd] at hrun2
      cases hrun2
    | some c1 =>
      rw [hupd] at hrun2
      have hrun3 : (some (fsWrite fs (root ++ ["package.json"]) c1, SRzero) :
          Option (FS × SROutput)) = some (fs1, o1) := hrun2
      simp only [Option.some.injEq, Prod.mk.injEq] at hrun3
      obtain ⟨hfs1, -⟩ := hrun3
      have hm1c1 : m1 = c1 := by
        rw [← hfs1, lookup_fsWrite_self, hl] at hman
        simpa using hman.symm
      subst hm1c1
      have hmark : ∀ p ∈ get_sr_paths fs root, p ≠ root ++ ["package.json"] :=
        fun p hp => marker_ne_manifest root p ((mem_get_sr_paths fs root p).mp hp).1
      have hmarkers : get_sr_paths fs1 root = get_sr_paths fs root := by
        rw [← hfs1]
        exact get_sr_paths_fsWrite fs (root ++ ["package.json"]) m1 root
      have hsd2 : amalgSrcDoc fs1 (get_sr_paths fs1 root) = some sd := by
        rw [hmarkers, ← hfs1, amalgSrcDoc_fsWrite fs (root ++ ["package.json"]) m1
          (get_sr_paths fs root) hmark]
        exact hsd
      have hupd2 : update_json_value_c m1 "license" (licenseExpr sd.1 sd.2) = some m1 := by
        apply updValueAux_noop
        · intro l hl2
          exact List.all_eq_true.mp hok l hl2
        · intro l w hlast hextract
          have h5 := hnoop
          unfold lastLineNoop at h5
          rw [hlast] at h5
          simp only [Option.all] at h5
          rw [hextract] at h5
          exact eq_of_beq h5
      constructor
      · rw [amalgamate_eq fs1 root sd hsd2, hman]
        show (do
          let c1 ← update_json_value_c m1 "license" (licenseExpr sd.1 sd.2)
          some (fsWrite fs1 (root ++ ["package.json"]) c1, SRzero) : Option (FS × SROutput)) = _
        rw [hupd2]
        rfl
      · rw [lookup_fsWrite_self, hman]
        rfl

/-- C1 witness: a component with one marker and an ordinary one-license-line
manifest; the second amalgamation reproduces the manifest byte for byte. -/
theorem c1_amalgamate_idempotent_witness :
    amalgamate_licenses
        [(["r", ".sr"], "source_license: MIT,\ndocumentation_license: CC0-1.0"),
         (["r", "package.json"], "license: (MIT AND CC0-1.0)")] ["r"] =
      some (fsWrite
        [(["r", ".sr"], "source_license: MIT,\ndocumentation_license: CC0-1.0"),
         (["r", "package.json"], "license: (MIT AND CC0-1.0)")]
        (["r"] ++ ["package.json"]) "license: (MIT AND CC0-1.0)", SRzero) ∧
    lookupFS (fsWrite
        [(["r", ".sr"], "source_license: MIT,\ndocumentation_license: CC0-1.0"),
         (["r", "package.json"], "license: (MIT AND CC0-1.0)")]
        (["r"] ++ ["package.json"]) "license: (MIT AND CC0-1.0)")
      (["r"] ++ ["package.json"]) = some "license: (MIT AND CC0-1.0)" :=
  c1_amalgamate_idempotent_amended
    [(["r", ".sr"], "source_license: MIT,\ndocumentation_license: CC0-1.0"),
     (["r", "package.json"], "license: Unlicense")]
    ["r"]
    [(["r", ".sr"], "source_license: MIT,\ndocumentation_license: CC0-1.0"),
     (["r", "package.json"], "license: (MIT AND CC0-1.0)")]
    SRzero (["MIT"], ["CC0-1.0"]) "license: (MIT AND CC0-1.0)"
    (by decide) (by decide) (by decide) (by decide) (by decide)

/-- C1 counterexample: with the manifest `license: a` / `license: license`
the first amalgamation rewrites only the last matching line (whose rewrite
removes the substring `license` from it), so the second run rewrites the
previously untouched first line and the manifest content after the second
call differs from the content after the first call. -/
theorem c1_amalgamate_idempotent_counterexample :
    amalgManifest
        [(["r", ".sr"], "source_license: MIT,\ndocumentation_license: CC0-1.0"),
         (["r", "package.json"], "license: a\nlicense: license\n")] ["r"] =
      some "license: a\n(MIT AND CC0-1.0): (MIT AND CC0-1.0)\n" ∧
    amalgTwiceManifest
        [(["r", ".sr"], "source_license: MIT,\ndocumentation_license: CC0-1.0"),
         (["r", "package.json"], "license: a\nlicense: license\n")] ["r"] =
      some "license: (MIT AND CC0-1.0)\n(MIT AND CC0-1.0): (MIT AND CC0-1.0)\n" ∧
    (some "license: a\n(MIT AND CC0-1.0): (MIT AND CC0-1.0)\n" : Option String) ≠
      some "license: (MIT AND CC0-1.0)\n(MIT AND CC0-1.0): (MIT AND CC0-1.0)\n" := by
  refine ⟨by decide, by decide, by decide⟩

end Sliderule
